import Mathlib

/-!
Shallow embedding of the MetaGrouper Obsidian plugin core
(expression parser/evaluator, wildcard matcher, tag normalization,
vault indexer and tree builder), with theorems checking the
natural-language specification against the code.

Strings are handled through their character lists where that eases
proofs; every definition mirrors the control flow of the TypeScript
source it is named after.
-/

/-! ## Reducible string helpers

Core `String` functions such as `toUpper`, `splitOn` and `startsWith` are
implemented on byte positions and do not reduce inside the kernel; the
embedding uses these list-based equivalents instead (JS strings are
character sequences, so these are the JS semantics directly). -/

/-- JS `toUpperCase` (ASCII): per-character uppercase. -/
def toUpperStr (s : String) : String :=
  String.mk (s.toList.map Char.toUpper)

/-- JS `toLowerCase` (ASCII): per-character lowercase. -/
def toLowerStr (s : String) : String :=
  String.mk (s.toList.map Char.toLower)

/-- JS `path.startsWith(pre)`. -/
def startsWithStr (s pre : String) : Bool :=
  pre.toList.isPrefixOf s.toList

/-- JS `path.endsWith(suf)`. -/
def endsWithStr (s suf : String) : Bool :=
  suf.toList.isSuffixOf s.toList

/-- Splitting a character list at every `/` (JS `split('/')`): the empty
string yields one empty segment; separators at the ends yield empty
segments. -/
def splitOnSlashAux (cs : List Char) (acc : List Char) : List (List Char) :=
  match cs with
  | [] => [acc.reverse]
  | c :: rest =>
    if c = '/' then acc.reverse :: splitOnSlashAux rest []
    else splitOnSlashAux rest (c :: acc)

/-- JS `s.split('/')`. -/
def splitSlash (s : String) : List String :=
  (splitOnSlashAux s.toList []).map String.mk

/-! ## Expression AST (src/unnamed/part_003, `ExpressionNode`) -/

/-- AST of the boolean filter-expression language:
predicate reference (filter label), NOT, AND, OR. -/
inductive ExpressionNode where
  | filter (label : String)
  | not (operand : ExpressionNode)
  | and (left right : ExpressionNode)
  | or (left right : ExpressionNode)
deriving DecidableEq, Repr

/-- Collect the labels of all predicate-reference nodes of an AST. -/
def labelsOf : ExpressionNode → List String
  | .filter label => [label]
  | .not operand => labelsOf operand
  | .and left right => labelsOf left ++ labelsOf right
  | .or left right => labelsOf left ++ labelsOf right

/-! ## Expression evaluator (src/unnamed/part_004, `ExpressionEvaluator`) -/

/-- `filterResults` map of the evaluator: label → boolean, modelled as an
association list with first-match lookup (JS `Map.get`). -/
def lookupResult (m : List (String × Bool)) (label : String) : Option Bool :=
  match m with
  | [] => Option.none
  | (k, v) :: rest => if k = label then Option.some v else lookupResult rest label

/-- `ExpressionEvaluator.evaluateNode`: recursive evaluation; a label absent
from the results map evaluates to `false` (fail closed); AND/OR mirror the
short-circuit structure of the source. -/
def evaluateNode (node : ExpressionNode) (filterResults : List (String × Bool)) : Bool :=
  match node with
  | .filter label =>
    match lookupResult filterResults label with
    | Option.none => false
    | Option.some result => result
  | .not operand => !(evaluateNode operand filterResults)
  | .and left right =>
    let leftResult := evaluateNode left filterResults
    if !leftResult then false else evaluateNode right filterResults
  | .or left right =>
    let leftResult := evaluateNode left filterResults
    if leftResult then true else evaluateNode right filterResults

/-- `ExpressionEvaluator.evaluate`: a null AST means no filtering and
evaluates to `true`. -/
def evaluate (ast : Option ExpressionNode) (filterResults : List (String × Bool)) : Bool :=
  match ast with
  | Option.none => true
  | Option.some node => evaluateNode node filterResults

/-- `ExpressionEvaluator.generateDefaultExpression`: empty list → empty
string; single label → the label; several labels → joined by " & ". -/
def generateDefaultExpression (labels : List String) : String :=
  match labels with
  | [] => ""
  | [l] => l
  | _ => String.intercalate " & " labels

/-! ## Wildcard matcher (src/unnamed/part_005, `matchWildcard`)

The source translates the glob pattern into a regular-expression string by
five global string replacements and then tests the full path against the
anchored regex.  We embed the replacement pipeline verbatim on character
lists and interpret the resulting regex string with standard regex
semantics for the constructs that can appear in it (literal characters,
backslash escapes, `[^/]*`, and `*`-repetition). -/

/-- Global, left-to-right, non-overlapping string replacement on character
lists: the behaviour of JS `String.replace` with a `/…/g` pattern of plain
characters (replacements are not rescanned). -/
def replaceAllFuel (pat repl : List Char) : Nat → List Char → List Char
  | 0, _ => []
  | _ + 1, [] => []
  | fuel + 1, c :: rest =>
    if pat ≠ [] ∧ pat.isPrefixOf (c :: rest) then
      repl ++ replaceAllFuel pat repl fuel ((c :: rest).drop pat.length)
    else
      c :: replaceAllFuel pat repl fuel rest

/-- The replacement, started with enough fuel: every step consumes at
least one input character, so `cs.length + 1` steps always complete the
scan. -/
def replaceAll (pat repl : List Char) (cs : List Char) : List Char :=
  replaceAllFuel pat repl (cs.length + 1) cs

/-- The regex-translation pipeline of `matchWildcard`, applied to the
pattern:
`**` → placeholder, `*` → `[^/]*`, placeholder → `.*`, `?` → `.`,
`.` → `\.` — in that order, each replacing all occurrences. -/
def translateWildcard (pattern : String) : List Char :=
  let s1 := replaceAll "**".toList "<<<DOUBLESTAR>>>".toList pattern.toList
  let s2 := replaceAll "*".toList "[^/]*".toList s1
  let s3 := replaceAll "<<<DOUBLESTAR>>>".toList ".*".toList s2
  let s4 := replaceAll "?".toList ".".toList s3
  replaceAll ".".toList "\\.".toList s4

/-- One atom of the regexes that the translation pipeline can produce:
a literal character, a starred literal (e.g. `\.*`), or `[^/]*`. -/
inductive RegexAtom where
  | lit (c : Char)
  | starLit (c : Char)
  | starNonSlash
deriving DecidableEq, Repr

/-- Read the translated regex string into its atoms.  A backslash escapes
the next character; `[^/]*` is the only character class the pipeline can
produce; a trailing lone backslash would be a regex syntax error and
yields `none`. -/
def readRegex : List Char → Option (List RegexAtom)
  | [] => Option.some []
  | '\\' :: c :: '*' :: rest => (readRegex rest).map (fun as => RegexAtom.starLit c :: as)
  | '\\' :: c :: rest => (readRegex rest).map (fun as => RegexAtom.lit c :: as)
  | ['\\'] => Option.none
  | '[' :: '^' :: '/' :: ']' :: '*' :: rest =>
    (readRegex rest).map (fun as => RegexAtom.starNonSlash :: as)
  | c :: '*' :: rest => (readRegex rest).map (fun as => RegexAtom.starLit c :: as)
  | c :: rest => (readRegex rest).map (fun as => RegexAtom.lit c :: as)

/-- Whole-string regex matching (the anchored `^…$` test of the source):
existence of a match, exploring both choices at each star. -/
def matchAtomsFuel : Nat → List RegexAtom → List Char → Bool
  | 0, _, _ => false
  | _ + 1, [], [] => true
  | _ + 1, [], _ :: _ => false
  | _ + 1, RegexAtom.lit _ :: _, [] => false
  | fuel + 1, RegexAtom.lit c :: as, x :: xs => c = x && matchAtomsFuel fuel as xs
  | fuel + 1, RegexAtom.starLit _ :: as, [] => matchAtomsFuel fuel as []
  | fuel + 1, RegexAtom.starLit c :: as, x :: xs =>
    matchAtomsFuel fuel as (x :: xs) ||
      (c = x && matchAtomsFuel fuel (RegexAtom.starLit c :: as) xs)
  | fuel + 1, RegexAtom.starNonSlash :: as, [] => matchAtomsFuel fuel as []
  | fuel + 1, RegexAtom.starNonSlash :: as, x :: xs =>
    matchAtomsFuel fuel as (x :: xs) ||
      (x ≠ '/' && matchAtomsFuel fuel (RegexAtom.starNonSlash :: as) xs)

/-- The match, started with enough fuel: every step lowers the combined
length of the remaining atoms and input, so `as.length + s.length + 1`
steps always decide the match. -/
def matchAtoms (as : List RegexAtom) (s : List Char) : Bool :=
  matchAtomsFuel (as.length + s.length + 1) as s

/-- `matchWildcard(path, pattern)`: translate the pattern and test the
full path against the resulting anchored regex. -/
def matchWildcard (path pattern : String) : Bool :=
  match readRegex (translateWildcard pattern) with
  | Option.none => false
  | Option.some atoms => matchAtoms atoms path.toList

/-! ## Tag normalization

Two distinct `normalizeTag` functions exist in the repository: the vault
indexer's (src/unnamed/part_000, lines 152–155) and the filter utility's
(src/unnamed/part_005, lines 176–179). -/

/-- The indexer's `normalizeTag`: strip a single leading `#` if present
(`tag.startsWith('#') ? tag.slice(1) : tag`). -/
def normalizeTagIndexer (tag : String) : String :=
  match tag.toList with
  | '#' :: rest => String.mk rest
  | _ => tag

/-- The filter utility's `normalizeTag`:
`tag.toLowerCase().replace(/^#/, "")` — lowercase, then strip at most one
leading `#`. -/
def normalizeTagUtils (tag : String) : String :=
  normalizeTagIndexer (toLowerStr tag)

/-! ## Expression tokenizer and parser (src/unnamed/part_003) -/

/-- Token types of the tokenizer. -/
inductive TokenType where
  | LABEL
  | AND
  | OR
  | NOT
  | LPAREN
  | RPAREN
  | EOF
deriving DecidableEq, Repr

/-- A token: type, source text, and start position. -/
structure Token where
  type : TokenType
  value : String
  position : Nat
deriving DecidableEq, Repr

/-- The whitespace class skipped by the tokenizer (JS `/\s/`) and trimmed
by `String.trim`; both sides of the model use this same predicate. -/
def isSpaceChar (c : Char) : Bool :=
  c = ' ' || c = '\t' || c = '\n' || c = '\r' || c = '\x0c' || c = '\x0b'

/-- JS `/[a-zA-Z]/`. -/
def isAsciiLetter (c : Char) : Bool :=
  ('a' ≤ c && c ≤ 'z') || ('A' ≤ c && c ≤ 'Z')

/-- JS `/[a-zA-Z0-9_-]/`: the characters a label may contain. -/
def isLabelChar (c : Char) : Bool :=
  isAsciiLetter c || ('0' ≤ c && c ≤ '9') || c = '_' || c = '-'

/-- `Tokenizer.nextToken`: skip whitespace, then read one token.  Returns
the token, the remaining input and the next position; an unexpected
character throws (modelled as `Except.error`). -/
def nextToken (cs : List Char) (pos : Nat) : Except String (Token × List Char × Nat) :=
  match cs with
  | [] => Except.ok ({ type := TokenType.EOF, value := "", position := pos }, [], pos)
  | c :: rest =>
    if isSpaceChar c then nextToken rest (pos + 1)
    else if c = '(' then
      Except.ok ({ type := TokenType.LPAREN, value := "(", position := pos }, rest, pos + 1)
    else if c = ')' then
      Except.ok ({ type := TokenType.RPAREN, value := ")", position := pos }, rest, pos + 1)
    else if c = '&' then
      Except.ok ({ type := TokenType.AND, value := "&", position := pos }, rest, pos + 1)
    else if c = '|' then
      Except.ok ({ type := TokenType.OR, value := "|", position := pos }, rest, pos + 1)
    else if c = '!' then
      Except.ok ({ type := TokenType.NOT, value := "!", position := pos }, rest, pos + 1)
    else if isAsciiLetter c then
      let value := (c :: rest).takeWhile isLabelChar
      let remaining := (c :: rest).drop value.length
      let newPos := pos + value.length
      let upperValue := toUpperStr (String.mk value)
      if upperValue = "AND" then
        Except.ok ({ type := TokenType.AND, value := "AND", position := pos }, remaining, newPos)
      else if upperValue = "OR" then
        Except.ok ({ type := TokenType.OR, value := "OR", position := pos }, remaining, newPos)
      else if upperValue = "NOT" then
        Except.ok ({ type := TokenType.NOT, value := "NOT", position := pos }, remaining, newPos)
      else
        Except.ok ({ type := TokenType.LABEL, value := String.mk value, position := pos },
          remaining, newPos)
    else
      Except.error ("Unexpected character at position " ++ toString pos)

/-- The token-collection loop of `parse`: call `nextToken` until EOF,
accumulating the tokens (EOF token included).  `fuel` bounds the loop;
every non-EOF token consumes at least one character, so
`cs.length + 1` steps always suffice. -/
def tokenizeAll (cs : List Char) (pos : Nat) (fuel : Nat) : Except String (List Token) :=
  match fuel with
  | 0 => Except.error "tokenizer step limit exceeded"
  | fuel + 1 =>
    match nextToken cs pos with
    | Except.error e => Except.error e
    | Except.ok (tok, rest, newPos) =>
      if tok.type = TokenType.EOF then Except.ok [tok]
      else
        match tokenizeAll rest newPos fuel with
        | Except.error e => Except.error e
        | Except.ok toks => Except.ok (tok :: toks)

/-- `ExpressionParser.currentToken`: the token at the cursor, or a default
EOF token when out of bounds (JS `this.tokens[this.current] || …`). -/
def currentToken (tokens : List Token) (i : Nat) : Token :=
  match tokens.get? i with
  | Option.some t => t
  | Option.none => { type := TokenType.EOF, value := "", position := 0 }

/-- `ExpressionParser.advance`: move the cursor forward, clamped to the
last token. -/
def advanceTok (tokens : List Token) (i : Nat) : Nat :=
  if i < tokens.length - 1 then i + 1 else i

mutual

/-- `parseOr`: `or_expr ::= and_expr (('|' | 'OR') and_expr)*`. -/
def parseOr (tokens : List Token) (i : Nat) (fuel : Nat) :
    Except String (ExpressionNode × Nat) :=
  match fuel with
  | 0 => Except.error "parser recursion limit exceeded"
  | fuel + 1 =>
    match parseAnd tokens i fuel with
    | Except.error e => Except.error e
    | Except.ok (left, j) => parseOrLoop tokens left j fuel

termination_by structural fuel

/-- The `while (OR)` loop of `parseOr`. -/
def parseOrLoop (tokens : List Token) (left : ExpressionNode) (i : Nat) (fuel : Nat) :
    Except String (ExpressionNode × Nat) :=
  match fuel with
  | 0 => Except.error "parser recursion limit exceeded"
  | fuel + 1 =>
    if (currentToken tokens i).type = TokenType.OR then
      match parseAnd tokens (advanceTok tokens i) fuel with
      | Except.error e => Except.error e
      | Except.ok (right, j) => parseOrLoop tokens (ExpressionNode.or left right) j fuel
    else
      Except.ok (left, i)

termination_by structural fuel

/-- `parseAnd`: `and_expr ::= not_expr (('&' | 'AND') not_expr)*`. -/
def parseAnd (tokens : List Token) (i : Nat) (fuel : Nat) :
    Except String (ExpressionNode × Nat) :=
  match fuel with
  | 0 => Except.error "parser recursion limit exceeded"
  | fuel + 1 =>
    match parseNot tokens i fuel with
    | Except.error e => Except.error e
    | Except.ok (left, j) => parseAndLoop tokens left j fuel

termination_by structural fuel

/-- The `while (AND)` loop of `parseAnd`. -/
def parseAndLoop (tokens : List Token) (left : ExpressionNode) (i : Nat) (fuel : Nat) :
    Except String (ExpressionNode × Nat) :=
  match fuel with
  | 0 => Except.error "parser recursion limit exceeded"
  | fuel + 1 =>
    if (currentToken tokens i).type = TokenType.AND then
      match parseNot tokens (advanceTok tokens i) fuel with
      | Except.error e => Except.error e
      | Except.ok (right, j) => parseAndLoop tokens (ExpressionNode.and left right) j fuel
    else
      Except.ok (left, i)

termination_by structural fuel

/-- `parseNot`: `not_expr ::= ('!' | 'NOT')* primary`, right-associative. -/
def parseNot (tokens : List Token) (i : Nat) (fuel : Nat) :
    Except String (ExpressionNode × Nat) :=
  match fuel with
  | 0 => Except.error "parser recursion limit exceeded"
  | fuel + 1 =>
    if (currentToken tokens i).type = TokenType.NOT then
      match parseNot tokens (advanceTok tokens i) fuel with
      | Except.error e => Except.error e
      | Except.ok (operand, j) => Except.ok (ExpressionNode.not operand, j)
    else
      parsePrimary tokens i fuel

termination_by structural fuel

/-- `parsePrimary`: `primary ::= LABEL | '(' or_expr ')'`; anything else
throws. -/
def parsePrimary (tokens : List Token) (i : Nat) (fuel : Nat) :
    Except String (ExpressionNode × Nat) :=
  match fuel with
  | 0 => Except.error "parser recursion limit exceeded"
  | fuel + 1 =>
    let token := currentToken tokens i
    if token.type = TokenType.LABEL then
      Except.ok (ExpressionNode.filter token.value, advanceTok tokens i)
    else if token.type = TokenType.LPAREN then
      match parseOr tokens (advanceTok tokens i) fuel with
      | Except.error e => Except.error e
      | Except.ok (expr, j) =>
        if (currentToken tokens j).type ≠ TokenType.RPAREN then
          Except.error ("Expected closing paren at position " ++
            toString (currentToken tokens j).position)
        else
          Except.ok (expr, advanceTok tokens j)
    else
      Except.error ("Expected label or opening paren at position " ++ toString token.position)
termination_by structural fuel

end

/-- Result of `parse`: AST or null, plus the error list. -/
structure ParseResult where
  ast : Option ExpressionNode
  errors : List String
deriving DecidableEq, Repr

/-- `!expression || expression.trim() === ''`: the input is empty or
whitespace-only. -/
def isBlankInput (s : String) : Bool :=
  s.toList.all isSpaceChar

/-- Fuel that always suffices for the recursive-descent parser: the call
depth between two consumed tokens is bounded by four. -/
def parserFuel (tokens : List Token) : Nat :=
  4 * tokens.length + 8

/-- `ExpressionParser.parse`: empty or whitespace-only input yields a null
AST and no errors; tokenizer or parser throws are caught and pushed onto
the error list; an unconsumed non-EOF token after parsing is an error; the
AST is returned only when the error list is empty. -/
def parse (expression : String) : ParseResult :=
  if isBlankInput expression then { ast := Option.none, errors := [] }
  else
    match tokenizeAll expression.toList 0 (expression.toList.length + 1) with
    | Except.error e => { ast := Option.none, errors := [e] }
    | Except.ok tokens =>
      match parseOr tokens 0 (parserFuel tokens) with
      | Except.error e => { ast := Option.none, errors := [e] }
      | Except.ok (ast, i) =>
        if (currentToken tokens i).type ≠ TokenType.EOF then
          { ast := Option.none,
            errors := ["Unexpected token at position " ++
              toString (currentToken tokens i).position] }
        else
          { ast := Option.some ast, errors := [] }

/-! ## Vault indexer (src/unnamed/part_000, `VaultIndexer`)

Files are referenced by their path string.  JS `Map`s become association
lists with JS semantics (`set` overwrites in place or appends a new key;
iteration follows insertion order); JS `Set`s become duplicate-free lists
with append-on-add. -/

/-- JS `Map.get`: first (only) binding of a key. -/
def alGet (m : List (String × α)) (k : String) : Option α :=
  match m with
  | [] => Option.none
  | (k2, v) :: rest => if k2 = k then Option.some v else alGet rest k

/-- JS `Map.set`: overwrite an existing binding in place, else append. -/
def alSet (m : List (String × α)) (k : String) (v : α) : List (String × α) :=
  match m with
  | [] => [(k, v)]
  | (k2, v2) :: rest => if k2 = k then (k, v) :: rest else (k2, v2) :: alSet rest k v

/-- JS `Set.add` on a list kept duplicate-free: append if absent. -/
def setAdd (l : List String) (x : String) : List String :=
  if x ∈ l then l else l ++ [x]

/-- The frontmatter of a file cache: the value of its `tags` field when
present, and its remaining key/value entries (values already canonicalized
to strings, mirroring `String(value)`). -/
structure FrontMatter where
  tags : Option (List String)
  entries : List (String × String)
deriving DecidableEq, Repr

/-- `CachedMetadata` as used by `indexFile`: optional frontmatter plus the
inline tag strings. -/
structure FileCache where
  frontmatter : Option FrontMatter
  tags : List String
deriving DecidableEq, Repr

/-- The index state of `VaultIndexer`. -/
structure VaultIndex where
  tagToFiles : List (String × List String)
  propertyToValueToFiles : List (String × List (String × List String))
  fileToTags : List (String × List String)
  fileToProperties : List (String × List (String × String))
  tagHierarchyCache : List (String × List String)
deriving DecidableEq, Repr

/-- The empty index. -/
def emptyIndex : VaultIndex :=
  { tagToFiles := [], propertyToValueToFiles := [], fileToTags := [],
    fileToProperties := [], tagHierarchyCache := [] }

/-- `parseTagHierarchy`: `"#a/b/c"` → `["a", "a/b", "a/b/c"]` — strip the
leading `#`, split on `/`, and emit every prefix joined back with `/`. -/
def parseTagHierarchy (tag : String) : List String :=
  let normalized := normalizeTagIndexer tag
  let segments := splitSlash normalized
  (List.range segments.length).map (fun i => String.intercalate "/" (segments.take (i + 1)))

/-- The tag set computed by `indexFile`: frontmatter tags (when the field
is present) then inline tags, each normalized and added to a JS `Set`. -/
def computedTags (cache : FileCache) : List String :=
  let fmTags :=
    match cache.frontmatter with
    | Option.none => []
    | Option.some fm =>
      match fm.tags with
      | Option.none => []
      | Option.some ts => ts
  (fmTags ++ cache.tags).foldl (fun acc t => setAdd acc (normalizeTagIndexer t)) []

/-- One step of the tag loop of `indexFile`: add the file to the bucket of
one ancestor tag. -/
def addFileToTagBucket (ix : VaultIndex) (parentTag file : String) : VaultIndex :=
  let bucket := setAdd ((alGet ix.tagToFiles parentTag).getD []) file
  { ix with tagToFiles := alSet ix.tagToFiles parentTag bucket }

/-- One iteration of the outer tag loop of `indexFile`: record the tag's
ancestor hierarchy in the cache and add the file to every ancestor's
bucket. -/
def indexTagStep (file : String) (ix2 : VaultIndex) (tag : String) : VaultIndex :=
  let hierarchy := parseTagHierarchy tag
  let ix3 := { ix2 with tagHierarchyCache := alSet ix2.tagHierarchyCache tag hierarchy }
  hierarchy.foldl (fun ix4 parentTag => addFileToTagBucket ix4 parentTag file) ix3

/-- One entry step of the property loop of `indexFile`: record the entry in
the accumulated `props` object and add the file to the nested
`propertyToValueToFiles` bucket, skipping the reserved keys. -/
def indexPropertyEntry (file : String) (st : List (String × String) × VaultIndex)
    (kv : String × String) : List (String × String) × VaultIndex :=
  if kv.1 = "tags" ∨ kv.1 = "position" then st
  else
    let props := alSet st.1 kv.1 kv.2
    let ix := st.2
    let valueMap := (alGet ix.propertyToValueToFiles kv.1).getD []
    let bucket := (alGet valueMap kv.2).getD []
    let valueMap2 := alSet valueMap kv.2 (setAdd bucket file)
    let pvf := alSet ix.propertyToValueToFiles kv.1 valueMap2
    (props, { ix with propertyToValueToFiles := pvf })

/-- The tag loop of `indexFile` over all computed tags. -/
def indexTagsResult (ix : VaultIndex) (file : String) (cache : FileCache) : VaultIndex :=
  (computedTags cache).foldl (indexTagStep file) ix

/-- The whole tag phase of `indexFile`: run the tag loop, then record the
file's tag set in the forward map. -/
def indexTagsPhase (ix : VaultIndex) (file : String) (cache : FileCache) : VaultIndex :=
  { indexTagsResult ix file cache with
    fileToTags := alSet (indexTagsResult ix file cache).fileToTags file (computedTags cache) }

/-- `VaultIndexer.indexFile` (src/unnamed/part_000, lines 76–137): no cache
→ no change; otherwise compute the normalized tag set, record each tag's
ancestor hierarchy in the cache and add the file to the bucket of every
ancestor, record the file's tag set, and — when frontmatter exists — index
its non-reserved properties. -/
def indexFile (ix : VaultIndex) (file : String) (cache : Option FileCache) : VaultIndex :=
  match cache with
  | Option.none => ix
  | Option.some cache =>
    let ix5 := indexTagsPhase ix file cache
    match cache.frontmatter with
    | Option.none => ix5
    | Option.some fm =>
      let st := fm.entries.foldl (indexPropertyEntry file) ([], ix5)
      { st.2 with fileToProperties := alSet st.2.fileToProperties file st.1 }

/-- Modelled from the spec: `removeFileFromIndex` is called by
`updateFileIndex` (src/unnamed/part_000, lines 1538–1548) but its body is
absent from the sources.  Per §4.1 of the spec, `update` "unconditionally
removes all of the document's prior bucket memberships (from both tag and
property buckets)"; it also drops the file's forward mappings. -/
def removeFileFromIndex (ix : VaultIndex) (file : String) : VaultIndex :=
  { ix with
    tagToFiles := ix.tagToFiles.map (fun kv => (kv.1, kv.2.filter (fun f => f ≠ file))),
    propertyToValueToFiles := ix.propertyToValueToFiles.map
      (fun kv => (kv.1, kv.2.map (fun vb => (vb.1, vb.2.filter (fun f => f ≠ file))))),
    fileToTags := ix.fileToTags.filter (fun kv => kv.1 ≠ file),
    fileToProperties := ix.fileToProperties.filter (fun kv => kv.1 ≠ file) }

/-- `VaultIndexer.updateFileIndex` (src/unnamed/part_000, lines 1538–1548):
remove the file's old entries, then re-index it from its current cache
state (the elided re-index body is the `indexFile` logic, per §4.1 of the
spec). -/
def updateFileIndex (ix : VaultIndex) (file : String) (cache : Option FileCache) : VaultIndex :=
  indexFile (removeFileFromIndex ix file) file cache

/-- `getFilesWithTag` / the tag bucket of the index (reading side of
`tagToFiles`; an absent tag yields the empty set). -/
def tagBucket (ix : VaultIndex) (tag : String) : List String :=
  (alGet ix.tagToFiles tag).getD []

/-- The property bucket of the index: files under one key/value pair. -/
def propBucket (ix : VaultIndex) (key value : String) : List String :=
  (alGet ((alGet ix.propertyToValueToFiles key).getD []) value).getD []

/-- Modelled from the spec: `getAllTags` is called by `buildFromTags` but
its body is absent from the sources; per §4.5 of the spec it enumerates
all tags known to the index — the keys of the tag→files map. -/
def getAllTags (ix : VaultIndex) : List String :=
  ix.tagToFiles.map (fun kv => kv.1)

/-- `getFileTags` accessor: the file's recorded tag set. -/
def getFileTags (ix : VaultIndex) (file : String) : List String :=
  (alGet ix.fileToTags file).getD []

/-- `getFileProperties` accessor: the file's recorded properties. -/
def getFileProperties (ix : VaultIndex) (file : String) : List (String × String) :=
  (alGet ix.fileToProperties file).getD []

/-! ## Tree builder (src/unnamed/part_000, `TreeBuilder`; factory functions
from src/unnamed/part_002)

`TreeNode` carries id, display name, node kind, directly attached files,
aggregate file count, children and depth.  The optional parent
back-reference is navigation-only in the source and is not representable
in a purely functional tree; no claim concerns it. -/

/-- Node kinds of `TreeNode.type`. -/
inductive NodeType where
  | tag
  | propertyGroup
  | file
deriving DecidableEq, Repr

/-- A tree node. -/
inductive TreeNode where
  | mk (id : String) (name : String) (ntype : NodeType) (files : List String)
      (fileCount : Nat) (children : List TreeNode) (depth : Nat)
deriving Repr

/-- The `fileCount` field. -/
def TreeNode.fileCount : TreeNode → Nat
  | .mk _ _ _ _ fc _ _ => fc

/-- The `files` field. -/
def TreeNode.files : TreeNode → List String
  | .mk _ _ _ fs _ _ _ => fs

/-- The `children` field. -/
def TreeNode.children : TreeNode → List TreeNode
  | .mk _ _ _ _ _ cs _ => cs

/-- The `name` field. -/
def TreeNode.name : TreeNode → String
  | .mk _ n _ _ _ _ _ => n

/-- The `id` field. -/
def TreeNode.nodeId : TreeNode → String
  | .mk i _ _ _ _ _ _ => i

/-- The last `/`-separated segment of a path (display name of a tag node). -/
def lastSegment (tagPath : String) : String :=
  let segments := splitSlash tagPath
  (segments.getLast?).getD ""

/-- `createTagNode(tagPath, files, depth)` with no options: id
`tag:<path>`, name = last segment, no children, `fileCount` = number of
attached files. -/
def createTagNode (tagPath : String) (files : List String) (depth : Nat) : TreeNode :=
  TreeNode.mk ("tag:" ++ tagPath) (lastSegment tagPath) NodeType.tag files files.length [] depth

/-- `createPropertyGroupNode(key, value, files, depth)` with no options:
id `prop:<key>:<value>`, name = the value. -/
def createPropertyGroupNode (propertyKey propertyValue : String) (files : List String)
    (depth : Nat) : TreeNode :=
  TreeNode.mk ("prop:" ++ propertyKey ++ ":" ++ propertyValue) propertyValue
    NodeType.propertyGroup files files.length [] depth

/-- The basename of a file path: last segment with a trailing `.md`
removed (host `TFile.basename`). -/
def basenameOf (path : String) : String :=
  let last := lastSegment path
  if endsWithStr last ".md" then last.dropRight 3 else last

/-- `createFileNode(file, depth)`: id `file:<path>`, name = basename,
one attached file, `fileCount` 1. -/
def createFileNode (path : String) (depth : Nat) : TreeNode :=
  TreeNode.mk ("file:" ++ path) (basenameOf path) NodeType.file [path] 1 [] depth

/-- Sum of the aggregate counts of a list of nodes. -/
def sumCounts (l : List TreeNode) : Nat :=
  (l.map TreeNode.fileCount).sum

mutual

/-- `TreeBuilder.calculateFileCounts`: bottom-up pass setting every node's
`fileCount` to its directly attached files plus its children's totals. -/
def calculateFileCounts : TreeNode → TreeNode
  | .mk id name ntype files _ children depth =>
    let newChildren := calcCounts children
    TreeNode.mk id name ntype files (files.length + sumCounts newChildren) newChildren depth

/-- `calculateFileCounts` over a child list. -/
def calcCounts : List TreeNode → List TreeNode
  | [] => []
  | c :: cs => calculateFileCounts c :: calcCounts cs

end

/-- The parent tag of a tag path: `segments.slice(0, -1).join('/')`. -/
def tagParent (tag : String) : String :=
  String.intercalate "/" ((splitSlash tag).dropLast)

/-- Number of `/`-separated segments of a tag (the sort key of
`buildFromTags`). -/
def tagDepth (tag : String) : Nat :=
  (splitSlash tag).length

/-- Stable insertion of a tag into a list sorted by ascending depth:
the JS `Array.sort` comparator `depthA - depthB` is a stable sort. -/
def insertByDepth (t : String) : List String → List String
  | [] => [t]
  | h :: rest =>
    if tagDepth h < tagDepth t then h :: insertByDepth t rest else t :: h :: rest

/-- Stable sort of the tag list by ascending depth. -/
def sortTagsByDepth : List String → List String
  | [] => []
  | h :: rest => insertByDepth h (sortTagsByDepth rest)

/-- The subtree built for one tag by the node-map loop of `buildFromTags`:
the node carries the tag's bucket files, and its children are the nodes of
the tags whose parent path is this tag (in sorted processing order —
parents sort strictly before children, so each child is attached to the
node created for its parent tag; a tag with the empty parent path attaches
to the root instead, so a node whose own tag is empty receives no
children).  `fuel` bounds the chain of strictly increasing depths and is
never exhausted when started at `sorted.length + 1`. -/
def buildTagNode (sorted : List String) (ix : VaultIndex) (tag : String) :
    Nat → TreeNode
  | 0 => createTagNode tag (tagBucket ix tag) (tagDepth tag)
  | fuel + 1 =>
    let files := tagBucket ix tag
    let childTags := if tag = "" then [] else sorted.filter (fun t => tagParent t = tag)
    let children := childTags.map (fun t => buildTagNode sorted ix t fuel)
    TreeNode.mk ("tag:" ++ tag) (lastSegment tag) NodeType.tag files files.length
      children (tagDepth tag)

/-- `TreeBuilder.buildFromTags()` with no root-tag restriction: enumerate
all tags, sort them by depth ascending, build the linked node structure
(top-level tags attach to the synthetic root), then run
`calculateFileCounts` over the whole tree. -/
def buildFromTags (ix : VaultIndex) : TreeNode :=
  let allTags := getAllTags ix
  let sorted := sortTagsByDepth allTags
  let rootTags := sorted.filter (fun t => tagParent t = "")
  let rootChildren := rootTags.map (fun t => buildTagNode sorted ix t sorted.length)
  let root := TreeNode.mk "root" "Root" NodeType.tag [] 0 rootChildren 0
  calculateFileCounts root

/-! ### buildFromHierarchy (src/unnamed/part_000, lines 320–419) -/

/-- Kind of one hierarchy level. -/
inductive LevelType where
  | tag
  | property
deriving DecidableEq, Repr

/-- One grouping level of a hierarchy configuration. -/
structure HierarchyLevel where
  type : LevelType
  key : String
  label : Option String
deriving DecidableEq, Repr

/-- The group key `groupFilesByLevel` assigns to one file: for a property
level, the file's value for the key or the `(none)` sentinel; for a tag
level, the first of the file's tags matching the level's prefix (the
falsy-string check sends an empty matched tag to `(untagged)` as well). -/
def groupKeyForFile (ix : VaultIndex) (level : HierarchyLevel) (file : String) : String :=
  match level.type with
  | LevelType.property =>
    let props := getFileProperties ix file
    (alGet props level.key).getD "(none)"
  | LevelType.tag =>
    let tags := getFileTags ix file
    let matchingTag := tags.find? (fun t => startsWithStr t level.key || level.key = "")
    match matchingTag with
    | Option.some t => if t = "" then "(untagged)" else t
    | Option.none => "(untagged)"

/-- Append a file to its group's bucket, creating the group at the end of
the map when new (JS `Map` insertion order). -/
def groupPush (groups : List (String × List String)) (key file : String) :
    List (String × List String) :=
  alSet groups key (((alGet groups key).getD []) ++ [file])

/-- `TreeBuilder.groupFilesByLevel`: partition the file list into groups
keyed per the level, preserving encounter order. -/
def groupFilesByLevel (ix : VaultIndex) (files : List String) (level : HierarchyLevel) :
    List (String × List String) :=
  files.foldl (fun groups f => groupPush groups (groupKeyForFile ix level f) f) []

/-- Overwrite a node's children and aggregate count (the two mutations the
group loop of `buildLevelRecursive` applies to a fresh group node). -/
def withChildrenAndCount : TreeNode → List TreeNode → Nat → TreeNode
  | .mk id name ntype files _ _ depth, cs, cnt =>
    TreeNode.mk id name ntype files cnt cs depth

/-- The fresh group node the loop body of `buildLevelRecursive` creates
for one group: a tag node or a property-group node, with no files
attached. -/
def groupNodeBase (level : HierarchyLevel) (groupKey : String) (depth : Nat) : TreeNode :=
  match level.type with
  | LevelType.tag => createTagNode groupKey [] depth
  | LevelType.property => createPropertyGroupNode level.key groupKey [] depth

/-- `TreeBuilder.buildLevelRecursive`: past the last level, emit one file
node per file under a wrapper whose count is the file total; otherwise
group the files by the current level, build each group's subtree one level
deeper, and graft the subtree's children onto a fresh group node whose
count is the group size. -/
def buildLevelRecursive (ix : VaultIndex) (files : List String)
    (levels : List HierarchyLevel) (depth : Nat) (parentId : String) : TreeNode :=
  if h : levels.length ≤ depth then
    TreeNode.mk parentId "Files" NodeType.file []
      files.length (files.map (fun f => createFileNode f (depth + 1))) depth
  else
    let level := levels.get ⟨depth, by omega⟩
    let groups := groupFilesByLevel ix files level
    let children := groups.map (fun g =>
      let node := groupNodeBase level g.1 depth
      let childNode := buildLevelRecursive ix g.2 levels (depth + 1) (parentId ++ ":" ++ g.1)
      withChildrenAndCount node childNode.children g.2.length)
    TreeNode.mk parentId ((level.label).getD level.key) NodeType.propertyGroup []
      files.length children depth
termination_by levels.length - depth
decreasing_by omega

/-! ## Predicates and concrete inputs used by the verification -/

/-- A word the tokenizer reserves as an operator keyword, in any letter
casing: its uppercase form is `AND`, `OR` or `NOT`. -/
def isOpKeyword (s : String) : Bool :=
  toUpperStr s = "AND" || toUpperStr s = "OR" || toUpperStr s = "NOT"

/-- Every LABEL token of a token list has a non-keyword value. -/
def tokensOk (tokens : List Token) : Prop :=
  ∀ t ∈ tokens, t.type = TokenType.LABEL → isOpKeyword t.value = false

/-- Every predicate-reference label of an AST is a non-keyword. -/
def goodLabels (n : ExpressionNode) : Prop :=
  ∀ l ∈ labelsOf n, isOpKeyword l = false

mutual

/-- The aggregate-count invariant of §3 of the spec, at every node of a
tree: `fileCount = |files| + Σ fileCount(child)`. -/
def invOk : TreeNode → Bool
  | .mk _ _ _ files fc children _ =>
    (fc = files.length + sumCounts children) && invOkList children

/-- `invOk` over a child list. -/
def invOkList : List TreeNode → Bool
  | [] => true
  | c :: cs => invOk c && invOkList cs

end

mutual

/-- All file attachments of a subtree, direct ones first (with
multiplicity). -/
def subtreeFiles : TreeNode → List String
  | .mk _ _ _ files _ children _ => files ++ subtreeFilesList children

/-- `subtreeFiles` over a child list. -/
def subtreeFilesList : List TreeNode → List String
  | [] => []
  | c :: cs => subtreeFiles c ++ subtreeFilesList cs

end

/-- Number of distinct files attached anywhere in a subtree: the aggregate
count a reading with "no file counted twice" would require. -/
def subtreeDistinctCount (t : TreeNode) : Nat :=
  (subtreeFiles t).dedup.length

/-- Total size of the buckets of a grouping map. -/
def sumSizes (groups : List (String × List String)) : Nat :=
  (groups.map (fun g => g.2.length)).sum

/-- The tag expansion an `indexFile` call contributes: some computed tag
of the cache has this tag in its ancestor hierarchy. -/
def tagIndexedBy (cache : FileCache) (tag : String) : Prop :=
  ∃ t ∈ computedTags cache, tag ∈ parseTagHierarchy t

/-- `tagIndexedBy` lifted to an optional cache. -/
def tagIndexedByOpt (cache : Option FileCache) (tag : String) : Prop :=
  match cache with
  | Option.none => False
  | Option.some c => tagIndexedBy c tag

/-- The property contribution an `indexFile` call makes: a non-reserved
frontmatter entry with this key and value. -/
def entryIndexedBy (cache : Option FileCache) (key value : String) : Prop :=
  match cache with
  | Option.none => False
  | Option.some c =>
    match c.frontmatter with
    | Option.none => False
    | Option.some fm =>
      ∃ kv ∈ fm.entries, ¬(kv.1 = "tags" ∨ kv.1 = "position") ∧ kv.1 = key ∧ kv.2 = value

/-- Cache of the end-to-end example document `D1` (a single frontmatter
tag `project/alpha`). -/
def cacheD1 : FileCache :=
  { frontmatter := Option.some { tags := Option.some ["project/alpha"], entries := [] },
    tags := [] }

/-- Cache of the end-to-end example document `D2` (a single frontmatter
tag `project/beta`). -/
def cacheD2 : FileCache :=
  { frontmatter := Option.some { tags := Option.some ["project/beta"], entries := [] },
    tags := [] }

/-- The index after indexing exactly `D1` and `D2`. -/
def exC2Index : VaultIndex :=
  indexFile (indexFile emptyIndex "d1.md" (Option.some cacheD1)) "d2.md" (Option.some cacheD2)

/-! ## Theorems -/

/-- C4: `evaluate` returns `true` on a null AST; a predicate-reference
whose label is absent from the results map evaluates to `false`
(fail closed); consequently AND with a missing label is `false`, OR of a
false label with a missing label is `false`, and NOT of a missing label
is `true`. -/
theorem c4_evaluator_fail_closed :
    (∀ m, evaluate Option.none m = true) ∧
    (∀ label m, lookupResult m label = Option.none →
      evaluateNode (ExpressionNode.filter label) m = false) ∧
    evaluate (Option.some (ExpressionNode.and (ExpressionNode.filter "lt")
      (ExpressionNode.filter "lm"))) [("lt", true), ("lf", false)] = false ∧
    evaluate (Option.some (ExpressionNode.or (ExpressionNode.filter "lf")
      (ExpressionNode.filter "lm"))) [("lt", true), ("lf", false)] = false ∧
    evaluate (Option.some (ExpressionNode.not (ExpressionNode.filter "lm")))
      [("lt", true), ("lf", false)] = true := by
  refine ⟨fun m => rfl, ?_, by decide, by decide, by decide⟩
  intro label m h
  simp [evaluateNode, h]

/-- Witness for C4 at a concrete missing label. -/
theorem c4_evaluator_fail_closed_witness :
    lookupResult [("lt", true)] "missing" = Option.none ∧
    evaluateNode (ExpressionNode.filter "missing") [("lt", true)] = false :=
  ⟨by decide, c4_evaluator_fail_closed.2.1 "missing" [("lt", true)] (by decide)⟩

/-- C3: evaluation of the embedded `matchWildcard` at the three cases of
the claim and at two `?` probes.  The single-star cases behave as
documented, but `project/**/note.md` fails to match
`project/alpha/x/note.md` — the final `.replace(/\./g, "\\.")` escapes the
dot of the `.*` that the `**` substitution just produced, so `**` matches
only runs of literal dots; likewise `?` is turned into `\.` and matches
only a literal dot, not an arbitrary character. -/
theorem c3_matchWildcard_translation_bug :
    matchWildcard "project/alpha/note.md" "project/*/note.md" = true ∧
    matchWildcard "project/alpha/x/note.md" "project/*/note.md" = false ∧
    matchWildcard "project/alpha/x/note.md" "project/**/note.md" = false ∧
    matchWildcard "ab" "a?" = false ∧
    matchWildcard "a." "a?" = true := by
  decide

/-- C5: the parser applies the precedence NOT over AND over OR with
parentheses for grouping, at the two expressions of the claim. -/
theorem c5_parser_precedence :
    parse "a & b | !c" =
      { ast := Option.some (ExpressionNode.or
          (ExpressionNode.and (ExpressionNode.filter "a") (ExpressionNode.filter "b"))
          (ExpressionNode.not (ExpressionNode.filter "c"))),
        errors := [] } ∧
    parse "(a|b)&c" =
      { ast := Option.some (ExpressionNode.and
          (ExpressionNode.or (ExpressionNode.filter "a") (ExpressionNode.filter "b"))
          (ExpressionNode.filter "c")),
        errors := [] } := by
  decide

/-- C8 counterexample: the filter-utility `normalizeTag` does not preserve
case — it maps `#Tag` to `tag`, not `Tag`. -/
theorem c8_normalizeTag_case_counterexample :
    ¬(normalizeTagUtils "#Tag" = "Tag") ∧ normalizeTagUtils "#Tag" = "tag" := by
  decide

/-- C8 amended: the indexer normalization strips exactly one leading `#`
and leaves every other character (case included) unchanged; the
filter-utility normalization is the same strip applied after
lowercasing the whole tag. -/
theorem c8_normalizeTag_amended :
    (∀ t : String, normalizeTagIndexer ("#" ++ t) = t) ∧
    (∀ t : String, t.toList.head? ≠ Option.some '#' → normalizeTagIndexer t = t) ∧
    (∀ t : String, normalizeTagUtils t = normalizeTagIndexer (toLowerStr t)) := by
  refine ⟨?_, ?_, fun t => rfl⟩
  · intro t
    have h : ("#" ++ t).toList = '#' :: t.toList := by
      simp [String.toList, String.data_append]
    simp only [normalizeTagIndexer, h]
    rfl
  · intro t h
    simp only [normalizeTagIndexer]
    split
    · rename_i rest heq
      rw [heq] at h
      simp at h
    · rfl

/-- Witness for C8 amended at concrete tags. -/
theorem c8_normalizeTag_amended_witness :
    normalizeTagIndexer ("#" ++ "Tag") = "Tag" ∧ normalizeTagIndexer "Tag" = "Tag" :=
  ⟨c8_normalizeTag_amended.1 "Tag", c8_normalizeTag_amended.2.1 "Tag" (by decide)⟩

/-- C6: empty or whitespace-only input parses to a null AST with an empty
error list; a trailing unconsumed token, an unmatched parenthesis, an
unexpected token and an unexpected character each return a null AST with
at least one error; no failure escapes the error list. -/
theorem c6_parse_reports_errors_as_data :
    (∀ s, isBlankInput s = true → parse s = { ast := Option.none, errors := [] }) ∧
    ((parse "a b").ast = Option.none ∧ (parse "a b").errors ≠ []) ∧
    ((parse "(a").ast = Option.none ∧ (parse "(a").errors ≠ []) ∧
    ((parse "&").ast = Option.none ∧ (parse "&").errors ≠ []) ∧
    ((parse "#").ast = Option.none ∧ (parse "#").errors ≠ []) := by
  refine ⟨?_, by decide, by decide, by decide, by decide⟩
  intro s h
  simp [parse, h]

/-- Witness for C6 at a whitespace-only input. -/
theorem c6_parse_reports_errors_as_data_witness :
    isBlankInput "  " = true ∧ parse "  " = { ast := Option.none, errors := [] } :=
  ⟨by decide, c6_parse_reports_errors_as_data.1 "  " (by decide)⟩

/-- C2 (code evaluated at the claim input): with exactly `D1` tagged
`project/alpha` and `D2` tagged `project/beta`, `buildFromTags` returns a
root with the single child `project` and grandchildren `alpha` and `beta`
of aggregate count 1 each — but the `project` node's aggregate count is 4,
not the 2 the claim (and the repository's own example, "project (2
files)") states: both documents sit in the ancestor-expanded `project`
bucket and are counted again through the children. -/
theorem c2_buildFromTags_example :
    (buildFromTags exC2Index).children.map TreeNode.name = ["project"] ∧
    (buildFromTags exC2Index).children.map TreeNode.fileCount = [4] ∧
    (buildFromTags exC2Index).children.map
      (fun c => c.children.map (fun d => (TreeNode.name d, TreeNode.fileCount d))) =
      [[("alpha", 1), ("beta", 1)]] := by
  decide

/-- C1 counterexample: in the tree `buildFromTags` builds for the C2
example index, the `project` node has aggregate count 4 although only 2
distinct files occur in its subtree — the same file is attached both at
the ancestor node and at a descendant, so it is counted twice. -/
theorem c1_no_double_counting_counterexample :
    (buildFromTags exC2Index).children.map
      (fun c => (TreeNode.fileCount c, subtreeDistinctCount c)) = [(4, 2)] := by
  decide

/-- C9: `parse` never returns a non-null AST together with a non-empty
error list — the AST is non-null exactly when the error list is empty and
the input is not empty or whitespace-only. -/
theorem c9_ast_iff_no_errors (s : String) :
    (parse s).ast ≠ Option.none ↔ ((parse s).errors = [] ∧ isBlankInput s = false) := by
  unfold parse
  by_cases hb : isBlankInput s
  · simp [hb]
  · rw [Bool.not_eq_true] at hb
    simp only [hb, Bool.false_eq_true, if_false]
    split
    · simp
    · split
      · simp
      · split
        · simp
        · simp

/-- `goodLabels` on a predicate-reference node. -/
theorem goodLabels_filter (l : String) :
    goodLabels (ExpressionNode.filter l) ↔ isOpKeyword l = false := by
  simp [goodLabels, labelsOf]

/-- `goodLabels` on a NOT node. -/
theorem goodLabels_not (o : ExpressionNode) :
    goodLabels (ExpressionNode.not o) ↔ goodLabels o := by
  simp [goodLabels, labelsOf]

/-- `goodLabels` on an AND node. -/
theorem goodLabels_and (l r : ExpressionNode) :
    goodLabels (ExpressionNode.and l r) ↔ goodLabels l ∧ goodLabels r := by
  constructor
  · intro h
    exact ⟨fun x hx => h x (by simp [labelsOf, hx]), fun x hx => h x (by simp [labelsOf, hx])⟩
  · intro h x hx
    rcases List.mem_append.mp (by simpa [labelsOf] using hx) with hx2 | hx2
    · exact h.1 x hx2
    · exact h.2 x hx2

/-- `goodLabels` on an OR node. -/
theorem goodLabels_or (l r : ExpressionNode) :
    goodLabels (ExpressionNode.or l r) ↔ goodLabels l ∧ goodLabels r := by
  constructor
  · intro h
    exact ⟨fun x hx => h x (by simp [labelsOf, hx]), fun x hx => h x (by simp [labelsOf, hx])⟩
  · intro h x hx
    rcases List.mem_append.mp (by simpa [labelsOf] using hx) with hx2 | hx2
    · exact h.1 x hx2
    · exact h.2 x hx2

/-- A current token of LABEL type is a real member of the token list (the
out-of-bounds default token has type EOF). -/
theorem currentToken_label_mem (tokens : List Token) (i : Nat)
    (h : (currentToken tokens i).type = TokenType.LABEL) :
    currentToken tokens i ∈ tokens := by
  unfold currentToken at *
  cases hg : tokens.get? i with
  | some t =>
    simp only [hg]
    exact List.get?_mem hg
  | none =>
    simp only [hg] at h
    simp at h

set_option maxHeartbeats 1600000 in
/-- Every LABEL token the tokenizer emits has a non-keyword value: the
three keyword checks run before a LABEL token is produced. -/
theorem nextToken_label_not_keyword :
    ∀ (cs : List Char) (pos : Nat) tok rest p,
      nextToken cs pos = Except.ok (tok, rest, p) →
      tok.type = TokenType.LABEL → isOpKeyword tok.value = false := by
  intro cs
  induction cs with
  | nil =>
    intro pos tok rest p h htype
    simp only [nextToken, Except.ok.injEq, Prod.mk.injEq] at h
    rw [← h.1] at htype
    exact TokenType.noConfusion htype
  | cons c cs ih =>
    intro pos tok rest p h htype
    simp only [nextToken] at h
    split at h
    · exact ih _ _ _ _ h htype
    · split at h
      · simp only [Except.ok.injEq, Prod.mk.injEq] at h; rw [← h.1] at htype; exact TokenType.noConfusion htype
      · split at h
        · simp only [Except.ok.injEq, Prod.mk.injEq] at h; rw [← h.1] at htype; exact TokenType.noConfusion htype
        · split at h
          · simp only [Except.ok.injEq, Prod.mk.injEq] at h; rw [← h.1] at htype; exact TokenType.noConfusion htype
          · split at h
            · simp only [Except.ok.injEq, Prod.mk.injEq] at h; rw [← h.1] at htype
              exact TokenType.noConfusion htype
            · split at h
              · simp only [Except.ok.injEq, Prod.mk.injEq] at h; rw [← h.1] at htype
                exact TokenType.noConfusion htype
              · split at h
                · split at h
                  · simp only [Except.ok.injEq, Prod.mk.injEq] at h; rw [← h.1] at htype
                    exact TokenType.noConfusion htype
                  · split at h
                    · simp only [Except.ok.injEq, Prod.mk.injEq] at h; rw [← h.1] at htype
                      exact TokenType.noConfusion htype
                    · split at h
                      · simp only [Except.ok.injEq, Prod.mk.injEq] at h
                        rw [← h.1] at htype
                        exact TokenType.noConfusion htype
                      · rename_i hand hor hnot
                        simp only [Except.ok.injEq, Prod.mk.injEq] at h
                        rw [← h.1]
                        simp only [isOpKeyword]
                        simp [hand, hor, hnot]
                · exact Except.noConfusion h

/-- Every token list the tokenize loop returns satisfies `tokensOk`. -/
theorem tokenizeAll_tokensOk :
    ∀ (fuel : Nat) (cs : List Char) (pos : Nat) (toks : List Token),
      tokenizeAll cs pos fuel = Except.ok toks → tokensOk toks := by
  intro fuel
  induction fuel with
  | zero =>
    intro cs pos toks h
    exact Except.noConfusion h
  | succ fuel ih =>
    intro cs pos toks h
    simp only [tokenizeAll] at h
    cases hnt : nextToken cs pos with
    | error e =>
      rw [hnt] at h
      exact Except.noConfusion h
    | ok res =>
      obtain ⟨tok, rest, newPos⟩ := res
      rw [hnt] at h
      simp only at h
      split at h
      · rename_i heof
        simp only [Except.ok.injEq] at h
        subst h
        intro t ht htype
        rw [List.mem_singleton] at ht
        subst ht
        rw [heof] at htype
        exact TokenType.noConfusion htype
      · cases hrec : tokenizeAll rest newPos fuel with
        | error e =>
          rw [hrec] at h
          exact Except.noConfusion h
        | ok toks2 =>
          rw [hrec] at h
          simp only [Except.ok.injEq] at h
          subst h
          intro t ht htype
          rcases List.mem_cons.mp ht with rfl | hmem
          · exact nextToken_label_not_keyword _ _ _ _ _ hnt htype
          · exact ih _ _ _ hrec t hmem htype

/-- Every AST the recursive-descent functions return draws its
predicate-reference labels from LABEL tokens of the token list, so none of
them is a reserved keyword. -/
theorem parser_labels_ok :
    ∀ (fuel : Nat),
      (∀ tokens i r, tokensOk tokens →
        parseOr tokens i fuel = Except.ok r → goodLabels r.1) ∧
      (∀ tokens left i r, tokensOk tokens → goodLabels left →
        parseOrLoop tokens left i fuel = Except.ok r → goodLabels r.1) ∧
      (∀ tokens i r, tokensOk tokens →
        parseAnd tokens i fuel = Except.ok r → goodLabels r.1) ∧
      (∀ tokens left i r, tokensOk tokens → goodLabels left →
        parseAndLoop tokens left i fuel = Except.ok r → goodLabels r.1) ∧
      (∀ tokens i r, tokensOk tokens →
        parseNot tokens i fuel = Except.ok r → goodLabels r.1) ∧
      (∀ tokens i r, tokensOk tokens →
        parsePrimary tokens i fuel = Except.ok r → goodLabels r.1) := by
  intro fuel
  induction fuel with
  | zero =>
    refine ⟨?_, ?_, ?_, ?_, ?_, ?_⟩ <;> intro tokens
    · intro i r _ h; exact Except.noConfusion h
    · intro left i r _ _ h; exact Except.noConfusion h
    · intro i r _ h; exact Except.noConfusion h
    · intro left i r _ _ h; exact Except.noConfusion h
    · intro i r _ h; exact Except.noConfusion h
    · intro i r _ h; exact Except.noConfusion h
  | succ fuel ih =>
    obtain ⟨ihOr, ihOrLoop, ihAnd, ihAndLoop, ihNot, ihPrim⟩ := ih
    refine ⟨?_, ?_, ?_, ?_, ?_, ?_⟩
    · -- parseOr
      intro tokens i r htok h
      simp only [parseOr] at h
      cases hA : parseAnd tokens i fuel with
      | error e => rw [hA] at h; exact Except.noConfusion h
      | ok res =>
        obtain ⟨left, j⟩ := res
        rw [hA] at h
        exact ihOrLoop tokens left j r htok (ihAnd tokens i (left, j) htok hA) h
    · -- parseOrLoop
      intro tokens left i r htok hleft h
      simp only [parseOrLoop] at h
      split at h
      · cases hA : parseAnd tokens (advanceTok tokens i) fuel with
        | error e => rw [hA] at h; exact Except.noConfusion h
        | ok res =>
          obtain ⟨right, j⟩ := res
          rw [hA] at h
          refine ihOrLoop tokens _ j r htok ?_ h
          exact (goodLabels_or left right).mpr ⟨hleft, ihAnd tokens _ (right, j) htok hA⟩
      · simp only [Except.ok.injEq] at h
        rw [← h]
        exact hleft
    · -- parseAnd
      intro tokens i r htok h
      simp only [parseAnd] at h
      cases hN : parseNot tokens i fuel with
      | error e => rw [hN] at h; exact Except.noConfusion h
      | ok res =>
        obtain ⟨left, j⟩ := res
        rw [hN] at h
        exact ihAndLoop tokens left j r htok (ihNot tokens i (left, j) htok hN) h
    · -- parseAndLoop
      intro tokens left i r htok hleft h
      simp only [parseAndLoop] at h
      split at h
      · cases hN : parseNot tokens (advanceTok tokens i) fuel with
        | error e => rw [hN] at h; exact Except.noConfusion h
        | ok res =>
          obtain ⟨right, j⟩ := res
          rw [hN] at h
          refine ihAndLoop tokens _ j r htok ?_ h
          exact (goodLabels_and left right).mpr ⟨hleft, ihNot tokens _ (right, j) htok hN⟩
      · simp only [Except.ok.injEq] at h
        rw [← h]
        exact hleft
    · -- parseNot
      intro tokens i r htok h
      simp only [parseNot] at h
      split at h
      · cases hN : parseNot tokens (advanceTok tokens i) fuel with
        | error e => rw [hN] at h; exact Except.noConfusion h
        | ok res =>
          obtain ⟨operand, j⟩ := res
          rw [hN] at h
          simp only [Except.ok.injEq] at h
          rw [← h]
          exact (goodLabels_not operand).mpr (ihNot tokens _ (operand, j) htok hN)
      · exact ihPrim tokens i r htok h
    · -- parsePrimary
      intro tokens i r htok h
      simp only [parsePrimary] at h
      split at h
      · rename_i hlab
        simp only [Except.ok.injEq] at h
        rw [← h]
        refine (goodLabels_filter _).mpr ?_
        exact htok _ (currentToken_label_mem tokens i hlab) hlab
      · split at h
        · cases hO : parseOr tokens (advanceTok tokens i) fuel with
          | error e => rw [hO] at h; exact Except.noConfusion h
          | ok res =>
            obtain ⟨expr, j⟩ := res
            rw [hO] at h
            simp only at h
            split at h
            · exact Except.noConfusion h
            · simp only [Except.ok.injEq] at h
              rw [← h]
              exact ihOr tokens _ (expr, j) htok hO
        · exact Except.noConfusion h

/-- C10: the words `and`, `or` and `not` in any letter casing are reserved
operator keywords: no predicate-reference label of any parsed AST has
uppercase form `AND`, `OR` or `NOT`, and an input consisting of only such
a word yields a null AST with an error. -/
theorem c10_keywords_reserved :
    (∀ (s : String) (ast : ExpressionNode), (parse s).ast = Option.some ast →
      ∀ l ∈ labelsOf ast, isOpKeyword l = false) ∧
    ((parse "not").ast = Option.none ∧ (parse "not").errors ≠ []) := by
  refine ⟨?_, by decide, by decide⟩
  intro s ast h l hmem
  unfold parse at h
  split at h
  · exact Option.noConfusion h
  · cases ht : tokenizeAll s.toList 0 (s.toList.length + 1) with
    | error e =>
      rw [ht] at h
      exact Option.noConfusion h
    | ok tokens =>
      rw [ht] at h
      simp only at h
      cases hp : parseOr tokens 0 (parserFuel tokens) with
      | error e =>
        rw [hp] at h
        exact Option.noConfusion h
      | ok res =>
        obtain ⟨a, i⟩ := res
        rw [hp] at h
        simp only at h
        split at h
        · exact Option.noConfusion h
        · simp only [Option.some.injEq] at h
          subst h
          exact (parser_labels_ok (parserFuel tokens)).1 tokens 0 (a, i)
            (tokenizeAll_tokensOk _ _ _ _ ht) hp l hmem

/-- Witness for C10: the parsed label of the input `a` is not a keyword. -/
theorem c10_keywords_reserved_witness :
    (parse "a").ast = Option.some (ExpressionNode.filter "a") ∧ isOpKeyword "a" = false := by
  refine ⟨by decide, ?_⟩
  exact c10_keywords_reserved.1 "a" (ExpressionNode.filter "a") (by decide) "a"
    (by simp [labelsOf])

/-- JS map lookup after a set: the set key now maps to the new value,
every other key is unchanged. -/
theorem alGet_alSet {α : Type} (m : List (String × α)) (k k2 : String) (v : α) :
    alGet (alSet m k v) k2 = if k = k2 then Option.some v else alGet m k2 := by
  induction m with
  | nil =>
    simp only [alSet, alGet]
  | cons kv rest ih =>
    obtain ⟨a, b⟩ := kv
    simp only [alSet]
    by_cases hak : a = k
    · subst hak
      simp only [if_pos rfl, alGet]
      by_cases h2 : a = k2 <;> simp [h2]
    · simp only [if_neg hak, alGet]
      by_cases h2 : a = k2
      · subst h2
        have hka : ¬(k = a) := fun h => hak h.symm
        rw [if_pos rfl, if_neg hka, if_pos rfl]
      · simp [h2, ih]

/-- Membership in a JS set after an add. -/
theorem mem_setAdd (l : List String) (x y : String) :
    y ∈ setAdd l x ↔ y ∈ l ∨ y = x := by
  unfold setAdd
  split
  · rename_i hmem
    constructor
    · exact fun h => Or.inl h
    · rintro (h | rfl)
      · exact h
      · exact hmem
  · simp

/-- Tag-bucket membership after adding one file to one tag bucket. -/
theorem tagBucket_addFile (ix : VaultIndex) (p file tag f : String) :
    f ∈ tagBucket (addFileToTagBucket ix p file) tag ↔
      f ∈ tagBucket ix tag ∨ (tag = p ∧ f = file) := by
  unfold addFileToTagBucket tagBucket
  rw [alGet_alSet]
  by_cases hp : p = tag
  · subst hp
    rw [if_pos rfl]
    simp only [Option.getD_some, mem_setAdd]
    simp
  · rw [if_neg hp]
    constructor
    · exact fun h => Or.inl h
    · rintro (h | ⟨rfl, rfl⟩)
      · exact h
      · exact absurd rfl hp

/-- Property buckets are untouched by a tag-bucket add. -/
theorem propBucket_addFile (ix : VaultIndex) (p file k v : String) :
    propBucket (addFileToTagBucket ix p file) k v = propBucket ix k v := rfl

/-- Tag-bucket membership after adding one file under a whole ancestor
list. -/
theorem tagBucket_addAll (L : List String) (ix : VaultIndex) (file tag f : String) :
    f ∈ tagBucket (L.foldl (fun ix4 p => addFileToTagBucket ix4 p file) ix) tag ↔
      f ∈ tagBucket ix tag ∨ (tag ∈ L ∧ f = file) := by
  induction L generalizing ix with
  | nil => simp
  | cons p L ih =>
    simp only [List.foldl_cons]
    rw [ih, tagBucket_addFile]
    simp only [List.mem_cons]
    tauto

/-- Tag-bucket membership after one iteration of the tag loop of
`indexFile`. -/
theorem tagBucket_indexTagStep (file : String) (ix2 : VaultIndex) (t tag f : String) :
    f ∈ tagBucket (indexTagStep file ix2 t) tag ↔
      f ∈ tagBucket ix2 tag ∨ (tag ∈ parseTagHierarchy t ∧ f = file) := by
  unfold indexTagStep
  rw [tagBucket_addAll]
  rfl

/-- Property buckets are untouched by adding a file under an ancestor
list. -/
theorem propertyToValueToFiles_addAll (L : List String) (ix : VaultIndex) (file : String) :
    (L.foldl (fun ix4 p => addFileToTagBucket ix4 p file) ix).propertyToValueToFiles =
      ix.propertyToValueToFiles := by
  induction L generalizing ix with
  | nil => rfl
  | cons p L ih =>
    simp only [List.foldl_cons]
    rw [ih]
    rfl

/-- Property buckets are untouched by the whole tag loop of `indexFile`. -/
theorem propertyToValueToFiles_indexTagStep (file : String) (ix2 : VaultIndex) (t : String) :
    (indexTagStep file ix2 t).propertyToValueToFiles = ix2.propertyToValueToFiles := by
  unfold indexTagStep
  rw [propertyToValueToFiles_addAll]

/-- Tag-bucket membership after the whole tag loop of `indexFile`. -/
theorem tagBucket_tagsFold (tags : List String) (ix : VaultIndex) (file tag f : String) :
    f ∈ tagBucket (tags.foldl (indexTagStep file) ix) tag ↔
      f ∈ tagBucket ix tag ∨ (∃ t ∈ tags, tag ∈ parseTagHierarchy t ∧ f = file) := by
  induction tags generalizing ix with
  | nil => simp
  | cons t tags ih =>
    simp only [List.foldl_cons]
    rw [ih, tagBucket_indexTagStep]
    simp only [List.mem_cons]
    constructor
    · rintro ((h | ⟨hm, rfl⟩) | ⟨t2, hm2, hm3, rfl⟩)
      · exact Or.inl h
      · exact Or.inr ⟨t, Or.inl rfl, hm, rfl⟩
      · exact Or.inr ⟨t2, Or.inr hm2, hm3, rfl⟩
    · rintro (h | ⟨t2, hm2 | hm2, hm3, rfl⟩)
      · exact Or.inl (Or.inl h)
      · subst hm2
        exact Or.inl (Or.inr ⟨hm3, rfl⟩)
      · exact Or.inr ⟨t2, hm2, hm3, rfl⟩

/-- Property buckets are untouched by the whole tag phase of
`indexFile`. -/
theorem propertyToValueToFiles_tagsFold (tags : List String) (ix : VaultIndex) (file : String) :
    (tags.foldl (indexTagStep file) ix).propertyToValueToFiles = ix.propertyToValueToFiles := by
  induction tags generalizing ix with
  | nil => rfl
  | cons t tags ih =>
    simp only [List.foldl_cons]
    rw [ih, propertyToValueToFiles_indexTagStep]

/-- Tag buckets are untouched by one property-entry step. -/
theorem tagToFiles_indexPropertyEntry (file : String)
    (st : List (String × String) × VaultIndex) (kv : String × String) :
    (indexPropertyEntry file st kv).2.tagToFiles = st.2.tagToFiles := by
  unfold indexPropertyEntry
  split
  · rfl
  · rfl

/-- Tag buckets are untouched by the whole property phase of
`indexFile`. -/
theorem tagToFiles_entriesFold (entries : List (String × String)) (file : String)
    (st : List (String × String) × VaultIndex) :
    ((entries.foldl (indexPropertyEntry file) st).2).tagToFiles = st.2.tagToFiles := by
  induction entries generalizing st with
  | nil => rfl
  | cons kv entries ih =>
    simp only [List.foldl_cons]
    rw [ih, tagToFiles_indexPropertyEntry]

/-- Property-bucket membership after one property-entry step. -/
theorem propBucket_indexPropertyEntry (file : String)
    (st : List (String × String) × VaultIndex) (kv : String × String) (k v f : String) :
    f ∈ propBucket (indexPropertyEntry file st kv).2 k v ↔
      f ∈ propBucket st.2 k v ∨
        (¬(kv.1 = "tags" ∨ kv.1 = "position") ∧ kv.1 = k ∧ kv.2 = v ∧ f = file) := by
  unfold indexPropertyEntry
  split
  · rename_i hres
    simp [hres]
  · rename_i hres
    simp only [propBucket, alGet_alSet]
    by_cases h1 : kv.1 = k
    · rw [if_pos h1]
      simp only [Option.getD_some, alGet_alSet]
      by_cases h2 : kv.2 = v
      · rw [if_pos h2]
        simp only [Option.getD_some, mem_setAdd]
        subst h1
        subst h2
        simp [hres]
      · rw [if_neg h2]
        subst h1
        simp [h2]
    · rw [if_neg h1]
      simp [h1]

/-- Property-bucket membership after the whole property phase of
`indexFile`. -/
theorem propBucket_entriesFold (entries : List (String × String)) (file : String)
    (st : List (String × String) × VaultIndex) (k v f : String) :
    f ∈ propBucket (entries.foldl (indexPropertyEntry file) st).2 k v ↔
      f ∈ propBucket st.2 k v ∨
        (∃ kv ∈ entries, ¬(kv.1 = "tags" ∨ kv.1 = "position") ∧ kv.1 = k ∧ kv.2 = v ∧
          f = file) := by
  induction entries generalizing st with
  | nil => simp
  | cons kv entries ih =>
    simp only [List.foldl_cons]
    rw [ih, propBucket_indexPropertyEntry]
    simp only [List.mem_cons]
    constructor
    · rintro ((h | ⟨ha, hb, hc, rfl⟩) | ⟨kv2, hm2, h3, h4, h5, rfl⟩)
      · exact Or.inl h
      · exact Or.inr ⟨kv, Or.inl rfl, ha, hb, hc, rfl⟩
      · exact Or.inr ⟨kv2, Or.inr hm2, h3, h4, h5, rfl⟩
    · rintro (h | ⟨kv2, hm2 | hm2, h3, h4, h5, rfl⟩)
      · exact Or.inl (Or.inl h)
      · subst hm2
        exact Or.inl (Or.inr ⟨h3, h4, h5, rfl⟩)
      · exact Or.inr ⟨kv2, hm2, h3, h4, h5, rfl⟩

/-- Tag buckets depend only on the `tagToFiles` component. -/
theorem tagBucket_congr (ix1 ix2 : VaultIndex) (tag : String)
    (h : ix1.tagToFiles = ix2.tagToFiles) : tagBucket ix1 tag = tagBucket ix2 tag := by
  simp [tagBucket, h]

/-- Property buckets depend only on the `propertyToValueToFiles`
component. -/
theorem propBucket_congr (ix1 ix2 : VaultIndex) (k v : String)
    (h : ix1.propertyToValueToFiles = ix2.propertyToValueToFiles) :
    propBucket ix1 k v = propBucket ix2 k v := by
  simp [propBucket, h]


/-- The tag phase does not touch property buckets. -/
theorem propBucket_indexTagsPhase (ix : VaultIndex) (file : String) (cache : FileCache)
    (k v : String) :
    propBucket (indexTagsPhase ix file cache) k v = propBucket ix k v := by
  rw [propBucket_congr (indexTagsPhase ix file cache) (indexTagsResult ix file cache) k v rfl]
  unfold indexTagsResult
  rw [propBucket_congr _ ix k v (propertyToValueToFiles_tagsFold (computedTags cache) ix file)]

/-- Tag-bucket membership after the tag phase of `indexFile`. -/
theorem tagBucket_indexTagsPhase (ix : VaultIndex) (file : String) (cache : FileCache)
    (tag f : String) :
    f ∈ tagBucket (indexTagsPhase ix file cache) tag ↔
      f ∈ tagBucket ix tag ∨ (tagIndexedBy cache tag ∧ f = file) := by
  rw [tagBucket_congr (indexTagsPhase ix file cache) (indexTagsResult ix file cache) tag rfl]
  unfold indexTagsResult
  rw [tagBucket_tagsFold]
  unfold tagIndexedBy
  constructor
  · rintro (h | ⟨t, hm, ha, rfl⟩)
    · exact Or.inl h
    · exact Or.inr ⟨⟨t, hm, ha⟩, rfl⟩
  · rintro (h | ⟨⟨t, hm, ha⟩, rfl⟩)
    · exact Or.inl h
    · exact Or.inr ⟨t, hm, ha, rfl⟩

/-- Tag-bucket membership after `indexFile`: unchanged for other files;
the indexed file joins exactly the buckets of the ancestors of its
computed tags. -/
theorem tagBucket_indexFile (ix : VaultIndex) (file : String) (cache : Option FileCache)
    (tag f : String) :
    f ∈ tagBucket (indexFile ix file cache) tag ↔
      f ∈ tagBucket ix tag ∨ (tagIndexedByOpt cache tag ∧ f = file) := by
  cases cache with
  | none => simp [indexFile, tagIndexedByOpt]
  | some c =>
    obtain ⟨cfm, ctags⟩ := c
    cases cfm with
    | none =>
      have e1 : indexFile ix file (Option.some ⟨Option.none, ctags⟩) =
          indexTagsPhase ix file ⟨Option.none, ctags⟩ := rfl
      rw [e1, tagBucket_indexTagsPhase]
      exact Iff.rfl
    | some fm =>
      have e1 : tagBucket (indexFile ix file (Option.some ⟨Option.some fm, ctags⟩)) tag =
          tagBucket (fm.entries.foldl (indexPropertyEntry file)
            ([], indexTagsPhase ix file ⟨Option.some fm, ctags⟩)).2 tag :=
        tagBucket_congr _ _ tag rfl
      rw [e1]
      have e2 : tagBucket (fm.entries.foldl (indexPropertyEntry file)
          ([], indexTagsPhase ix file ⟨Option.some fm, ctags⟩)).2 tag =
          tagBucket (indexTagsPhase ix file ⟨Option.some fm, ctags⟩) tag :=
        tagBucket_congr _ _ tag (by rw [tagToFiles_entriesFold])
      rw [e2, tagBucket_indexTagsPhase]
      exact Iff.rfl

/-- Property-bucket membership after `indexFile`: unchanged for other
files; the indexed file joins exactly the buckets of its non-reserved
frontmatter entries. -/
theorem propBucket_indexFile (ix : VaultIndex) (file : String) (cache : Option FileCache)
    (k v f : String) :
    f ∈ propBucket (indexFile ix file cache) k v ↔
      f ∈ propBucket ix k v ∨ (entryIndexedBy cache k v ∧ f = file) := by
  cases cache with
  | none => simp [indexFile, entryIndexedBy]
  | some c =>
    obtain ⟨cfm, ctags⟩ := c
    cases cfm with
    | none =>
      have e1 : indexFile ix file (Option.some ⟨Option.none, ctags⟩) =
          indexTagsPhase ix file ⟨Option.none, ctags⟩ := rfl
      rw [e1, propBucket_indexTagsPhase]
      simp [entryIndexedBy]
    | some fm =>
      have h3 := propBucket_entriesFold fm.entries file
        ([], indexTagsPhase ix file ⟨Option.some fm, ctags⟩) k v f
      have h4 : propBucket
          (([] : List (String × String)), indexTagsPhase ix file ⟨Option.some fm, ctags⟩).2
          k v = propBucket ix k v :=
        propBucket_indexTagsPhase ix file ⟨Option.some fm, ctags⟩ k v
      rw [h4] at h3
      refine Iff.trans h3 ?_
      simp only [entryIndexedBy]
      constructor
      · rintro (h | ⟨kv, hm, h5, h6, h7, rfl⟩)
        · exact Or.inl h
        · exact Or.inr ⟨⟨kv, hm, h5, h6, h7⟩, rfl⟩
      · rintro (h | ⟨⟨kv, hm, h5, h6, h7⟩, rfl⟩)
        · exact Or.inl h
        · exact Or.inr ⟨kv, hm, h5, h6, h7, rfl⟩

/-- Lookup in a value-mapped association list. -/
theorem alGet_map_snd {α β : Type} (g : α → β) (m : List (String × α)) (k : String) :
    alGet (m.map (fun kv => (kv.1, g kv.2))) k = (alGet m k).map g := by
  induction m with
  | nil => rfl
  | cons kv rest ih =>
    obtain ⟨a, b⟩ := kv
    simp only [List.map_cons, alGet]
    by_cases h : a = k
    · simp [h]
    · simp [h, ih]

/-- Tag-bucket membership after `removeFileFromIndex`: the removed file is
gone from every bucket, every other file is untouched. -/
theorem tagBucket_remove (ix : VaultIndex) (file tag f : String) :
    f ∈ tagBucket (removeFileFromIndex ix file) tag ↔
      f ∈ tagBucket ix tag ∧ ¬(f = file) := by
  unfold removeFileFromIndex tagBucket
  rw [show (ix.tagToFiles.map (fun kv => (kv.1, kv.2.filter (fun f2 => f2 ≠ file)))) =
    (ix.tagToFiles.map (fun kv => (kv.1, kv.2.filter (fun f2 => f2 ≠ file)))) from rfl]
  rw [alGet_map_snd (fun l => l.filter (fun f2 => f2 ≠ file)) ix.tagToFiles tag]
  cases halg : alGet ix.tagToFiles tag with
  | none => simp
  | some l => simp [List.mem_filter]

/-- Property-bucket membership after `removeFileFromIndex`. -/
theorem propBucket_remove (ix : VaultIndex) (file k v f : String) :
    f ∈ propBucket (removeFileFromIndex ix file) k v ↔
      f ∈ propBucket ix k v ∧ ¬(f = file) := by
  unfold removeFileFromIndex propBucket
  rw [alGet_map_snd (fun vm => vm.map (fun vb => (vb.1, vb.2.filter (fun f2 => f2 ≠ file))))
    ix.propertyToValueToFiles k]
  cases halg : alGet ix.propertyToValueToFiles k with
  | none => simp [alGet]
  | some vm =>
    simp only [Option.map_some', Option.getD_some]
    rw [alGet_map_snd (fun l => l.filter (fun f2 => f2 ≠ file)) vm v]
    cases halg2 : alGet vm v with
    | none => simp
    | some l => simp [List.mem_filter]

/-- C7 (spec-modelled removal): re-indexing a document twice in succession
against the same cache state leaves the membership of every tag bucket and
every property bucket the same as after the first re-index. -/
theorem c7_update_idempotent (ix : VaultIndex) (file : String) (cache : Option FileCache)
    (tag key value f : String) :
    (f ∈ tagBucket (updateFileIndex (updateFileIndex ix file cache) file cache) tag ↔
      f ∈ tagBucket (updateFileIndex ix file cache) tag) ∧
    (f ∈ propBucket (updateFileIndex (updateFileIndex ix file cache) file cache) key value ↔
      f ∈ propBucket (updateFileIndex ix file cache) key value) := by
  unfold updateFileIndex
  constructor
  · rw [tagBucket_indexFile, tagBucket_remove, tagBucket_indexFile, tagBucket_remove]
    by_cases hf : f = file
    · subst hf
      tauto
    · tauto
  · rw [propBucket_indexFile, propBucket_remove, propBucket_indexFile, propBucket_remove]
    by_cases hf : f = file
    · subst hf
      tauto
    · tauto

/-- Unfolded form of the aggregate-count invariant at one node. -/
theorem invOk_eq_true_iff (t : TreeNode) :
    invOk t = true ↔
      (t.fileCount = t.files.length + sumCounts t.children ∧ invOkList t.children = true) := by
  obtain ⟨id, name, ntype, files, fc, children, depth⟩ := t
  simp [invOk, TreeNode.fileCount, TreeNode.files, TreeNode.children, Bool.and_eq_true]

/-- The invariant over a list holds exactly when it holds at each node. -/
theorem invOkList_eq_true_iff (l : List TreeNode) :
    invOkList l = true ↔ ∀ t ∈ l, invOk t = true := by
  induction l with
  | nil => simp [invOkList]
  | cons c cs ih => simp [invOkList, Bool.and_eq_true, ih]

/-- `calculateFileCounts` establishes the aggregate-count invariant at
every node of any tree (auxiliary strong induction on size). -/
theorem invOk_calc_aux :
    ∀ (n : Nat),
      (∀ t : TreeNode, sizeOf t ≤ n → invOk (calculateFileCounts t) = true) ∧
      (∀ l : List TreeNode, sizeOf l ≤ n → invOkList (calcCounts l) = true) := by
  intro n
  induction n with
  | zero =>
    constructor
    · intro t ht
      obtain ⟨id, name, ntype, files, fc, children, depth⟩ := t
      simp only [TreeNode.mk.sizeOf_spec] at ht
      omega
    · intro l hl
      cases l with
      | nil => rfl
      | cons c cs =>
        simp only [List.cons.sizeOf_spec] at hl
        omega
  | succ n ih =>
    constructor
    · intro t ht
      obtain ⟨id, name, ntype, files, fc, children, depth⟩ := t
      simp only [TreeNode.mk.sizeOf_spec] at ht
      simp only [calculateFileCounts, invOk, Bool.and_eq_true, decide_eq_true_eq]
      constructor
      · trivial
      · exact ih.2 children (by omega)
    · intro l hl
      cases l with
      | nil => rfl
      | cons c cs =>
        simp only [List.cons.sizeOf_spec] at hl
        simp only [calcCounts, invOkList, Bool.and_eq_true]
        exact ⟨ih.1 c (by omega), ih.2 cs (by omega)⟩

/-- `calculateFileCounts` establishes the aggregate-count invariant. -/
theorem invOk_calculateFileCounts (t : TreeNode) : invOk (calculateFileCounts t) = true :=
  (invOk_calc_aux (sizeOf t)).1 t le_rfl

/-- The wrapper of file nodes contributes exactly one count per file. -/
theorem sumCounts_fileNodes (files : List String) (d : Nat) :
    sumCounts (files.map (fun f => createFileNode f d)) = files.length := by
  induction files with
  | nil => rfl
  | cons f fs ih =>
    simp only [List.map_cons, sumCounts, List.sum_cons, List.map_map] at ih ⊢
    rw [show TreeNode.fileCount (createFileNode f d) = 1 from rfl]
    simp only [List.length_cons]
    omega

/-- Every created file node satisfies the invariant. -/
theorem invOkList_fileNodes (files : List String) (d : Nat) :
    invOkList (files.map (fun f => createFileNode f d)) = true := by
  induction files with
  | nil => rfl
  | cons f fs ih =>
    simp only [List.map_cons, invOkList, Bool.and_eq_true]
    exact ⟨by simp [createFileNode, invOk, invOkList, sumCounts], ih⟩

/-- Pushing a file into its group grows the total group size by one. -/
theorem sumSizes_groupPush (groups : List (String × List String)) (k f : String) :
    sumSizes (groupPush groups k f) = sumSizes groups + 1 := by
  unfold groupPush
  induction groups with
  | nil => simp [alSet, alGet, sumSizes]
  | cons g rest ih =>
    obtain ⟨a, b⟩ := g
    by_cases h : a = k
    · subst h
      simp [alSet, alGet, sumSizes]
      omega
    · simp only [alSet, alGet, if_neg h, sumSizes, List.map_cons, List.sum_cons] at *
      omega

/-- The groups of `groupFilesByLevel` partition the file list: their sizes
sum to the number of files. -/
theorem sumSizes_groupFilesByLevel (ix : VaultIndex) (level : HierarchyLevel) :
    ∀ (files : List String) (gs0 : List (String × List String)),
      sumSizes (files.foldl (fun gs f => groupPush gs (groupKeyForFile ix level f) f) gs0) =
        sumSizes gs0 + files.length := by
  intro files
  induction files with
  | nil => simp
  | cons f fs ih =>
    intro gs0
    simp only [List.foldl_cons]
    rw [ih, sumSizes_groupPush]
    simp only [List.length_cons]
    omega

/-- The two mutations of `withChildrenAndCount`, read back. -/
theorem withChildrenAndCount_fileCount (n : TreeNode) (cs : List TreeNode) (cnt : Nat) :
    (withChildrenAndCount n cs cnt).fileCount = cnt := by
  obtain ⟨id, name, ntype, files, fc, children, depth⟩ := n
  rfl

/-- `withChildrenAndCount` keeps the directly attached files. -/
theorem withChildrenAndCount_files (n : TreeNode) (cs : List TreeNode) (cnt : Nat) :
    (withChildrenAndCount n cs cnt).files = n.files := by
  obtain ⟨id, name, ntype, files, fc, children, depth⟩ := n
  rfl

/-- `withChildrenAndCount` installs the given children. -/
theorem withChildrenAndCount_children (n : TreeNode) (cs : List TreeNode) (cnt : Nat) :
    (withChildrenAndCount n cs cnt).children = cs := by
  obtain ⟨id, name, ntype, files, fc, children, depth⟩ := n
  rfl

/-- Counts of mapped group nodes sum to the group sizes when each node
carries its group's size. -/
theorem sumCounts_map_groups (F : String × List String → TreeNode)
    (h : ∀ g, (F g).fileCount = g.2.length) :
    ∀ groups : List (String × List String), sumCounts (groups.map F) = sumSizes groups := by
  intro groups
  induction groups with
  | nil => rfl
  | cons g gs ih =>
    simp only [List.map_cons, sumCounts, List.map, List.sum_cons] at *
    rw [h g, ih]
    rfl

/-- The root fields of `buildLevelRecursive`: no directly attached files,
and an aggregate count equal to the incoming file total. -/
theorem buildLevelRecursive_shape (ix : VaultIndex) (files : List String)
    (levels : List HierarchyLevel) (depth : Nat) (pid : String) :
    (buildLevelRecursive ix files levels depth pid).fileCount = files.length ∧
    (buildLevelRecursive ix files levels depth pid).files = [] := by
  rw [buildLevelRecursive]
  split
  · exact ⟨rfl, rfl⟩
  · exact ⟨rfl, rfl⟩

/-- A fresh group node has no directly attached files. -/
theorem groupNodeBase_files (level : HierarchyLevel) (gk : String) (d : Nat) :
    (groupNodeBase level gk d).files = [] := by
  obtain ⟨lt, k, lb⟩ := level
  cases lt <;> rfl

/-- The invariant at the base (past-the-last-level) node of
`buildLevelRecursive`. -/
theorem invOk_buildLevel_base (ix : VaultIndex) (files : List String)
    (levels : List HierarchyLevel) (depth : Nat) (pid : String)
    (h : levels.length ≤ depth) :
    invOk (buildLevelRecursive ix files levels depth pid) = true := by
  rw [buildLevelRecursive, dif_pos h]
  simp only [invOk, Bool.and_eq_true, decide_eq_true_eq]
  refine ⟨?_, invOkList_fileNodes files (depth + 1)⟩
  rw [sumCounts_fileNodes]
  simp

/-- The aggregate-count invariant holds at every node of every tree
`buildLevelRecursive` returns (induction on the remaining levels). -/
theorem invOk_buildLevelRecursive_aux :
    ∀ (k : Nat) (ix : VaultIndex) (files : List String) (levels : List HierarchyLevel)
      (depth : Nat) (pid : String), levels.length - depth ≤ k →
      invOk (buildLevelRecursive ix files levels depth pid) = true := by
  intro k
  induction k with
  | zero =>
    intro ix files levels depth pid hk
    exact invOk_buildLevel_base ix files levels depth pid (by omega)
  | succ k ihk =>
    intro ix files levels depth pid hk
    by_cases h : levels.length ≤ depth
    · exact invOk_buildLevel_base ix files levels depth pid h
    · rw [buildLevelRecursive, dif_neg h]
      simp only [invOk, Bool.and_eq_true, decide_eq_true_eq]
      constructor
      · rw [sumCounts_map_groups _ (fun g => withChildrenAndCount_fileCount _ _ _)]
        unfold groupFilesByLevel
        rw [sumSizes_groupFilesByLevel]
        simp [sumSizes]
      · rw [invOkList_eq_true_iff]
        intro t ht
        rw [List.mem_map] at ht
        obtain ⟨g, hg, rfl⟩ := ht
        rw [invOk_eq_true_iff, withChildrenAndCount_fileCount, withChildrenAndCount_files,
          withChildrenAndCount_children]
        have hchild := ihk ix g.2 levels (depth + 1) (pid ++ ":" ++ g.1) (by omega)
        rw [invOk_eq_true_iff] at hchild
        obtain ⟨hc1, hc2⟩ := hchild
        obtain ⟨hs1, hs2⟩ := buildLevelRecursive_shape ix g.2 levels (depth + 1)
          (pid ++ ":" ++ g.1)
        refine ⟨?_, hc2⟩
        rw [hs1, hs2] at hc1
        rw [groupNodeBase_files]
        simpa using hc1

/-- C1 amended: both builders return trees in which every node's aggregate
count equals its directly attached files plus the sum of its children's
aggregate counts — `buildFromTags` through the mandatory
`calculateFileCounts` pass, `buildFromHierarchy`'s recursion by
construction. -/
theorem c1_aggregate_invariant :
    (∀ ix : VaultIndex, invOk (buildFromTags ix) = true) ∧
    (∀ (ix : VaultIndex) (files : List String) (levels : List HierarchyLevel)
      (depth : Nat) (pid : String),
      invOk (buildLevelRecursive ix files levels depth pid) = true) := by
  constructor
  · intro ix
    unfold buildFromTags
    exact invOk_calculateFileCounts _
  · intro ix files levels depth pid
    exact invOk_buildLevelRecursive_aux (levels.length - depth) ix files levels depth pid le_rfl
